import Mathlib

/-!
# UDTrafficSim: the message queue and the traffic light

A verification development for `src/TrafficLight.cpp`.

* `MessageQueue` embeds `MessageQueue<T>`: the pending `std::deque` is a list,
  `send` appends at the back, `receive` waits for a non-empty deque and then
  takes the front.  A call that cannot proceed is reported as `Outcome.blocked`.
* `TrafficLight` embeds the two data members `_currentPhase` and `_phaseQueue`.
  `changePhase` is the critical section of `cycleThroughPhases` (lines 94-103),
  `waitForGreen` is the caller side.
* `System` is the interleaving model with the flip as one step: one timer
  thread and any number of caller threads.  `FineSystem` takes the write of
  the phase and the send of a flip apart, so that a `receive` can run between
  them.
* `roundDouble` is rounding to `double`; `cycleThroughPhases` runs the timer
  loop against the successive readings of `steady_clock::now()`, in
  nanoseconds, and the successive draws of the random engine.
-/

namespace UDTrafficSim

/-! ## Outcomes of a call -/

/-- Result of running a call on a state of type `σ`: the call stays blocked in
    a wait (with the state it has reached), it returns a value together with
    the new state, or it has evaluated an operation outside its precondition. -/
inductive Outcome (σ : Type) (α : Type) where
  | blocked (s : σ)
  | returned (a : α) (s : σ)
  | undefined
  deriving DecidableEq, Repr

/-! ## MessageQueue -/

/-- The data member `_queue` of `MessageQueue<T>` (a `std::deque<T>`); the mutex
    and the condition variable carry no data. -/
structure MessageQueue (T : Type) where
  _queue : List T
  deriving DecidableEq, Repr

namespace MessageQueue

variable {T : Type}

/-- A queue with nothing pending. -/
def empty : MessageQueue T := ⟨[]⟩

/-- Embeds `MessageQueue<T>::send`: `_queue.emplace_back(msg)`. -/
def send (q : MessageQueue T) (msg : T) : MessageQueue T :=
  ⟨q._queue ++ [msg]⟩

/-- Embeds `MessageQueue<T>::receive`: the predicate-guarded wait lets the call go on
    only when `_queue` is not empty; then `front()` is read and `pop_front()`
    is applied.  `front()` of an empty deque is outside its precondition. -/
def receive (q : MessageQueue T) : Outcome (MessageQueue T) T :=
  if q._queue.isEmpty then
    Outcome.blocked q
  else
    match q._queue.head? with
    | none => Outcome.undefined
    | some ret => Outcome.returned ret ⟨q._queue.tail⟩

/-- Sends the values of a list one after the other. -/
def sendAll (q : MessageQueue T) : List T → MessageQueue T
  | [] => q
  | v :: vs => sendAll (q.send v) vs

/-- Performs `n` successive `receive` calls, collecting the returned values;
    `none` as soon as one of the calls does not return. -/
def receiveN (q : MessageQueue T) : Nat → Option (List T × MessageQueue T)
  | 0 => some ([], q)
  | n + 1 =>
    match q.receive with
    | Outcome.returned ret q1 =>
      match receiveN q1 n with
      | some (rs, q2) => some (ret :: rs, q2)
      | none => none
    | _ => none

/-- One operation on a queue in an interleaving. -/
inductive Op (T : Type) where
  | send (msg : T)
  | receive
  deriving DecidableEq, Repr

/-- The queue together with the histories of an interleaving: everything sent
    so far and everything received so far. -/
structure Trace (T : Type) where
  queue : MessageQueue T
  sent : List T
  received : List T

/-- Runs one operation; a `receive` that does not return leaves everything as
    it was. -/
def Trace.step (t : Trace T) : Op T → Trace T
  | Op.send msg => { t with queue := t.queue.send msg, sent := t.sent ++ [msg] }
  | Op.receive =>
    match t.queue.receive with
    | Outcome.returned ret q1 => { t with queue := q1, received := t.received ++ [ret] }
    | _ => t

/-- Runs an interleaving of operations from left to right. -/
def Trace.run (t : Trace T) (ops : List (Op T)) : Trace T :=
  ops.foldl Trace.step t

/-- The trace of a queue on which nothing has happened yet. -/
def Trace.init : Trace T := ⟨MessageQueue.empty, [], []⟩

end MessageQueue

/-! ## TrafficLight -/

/-- The enumeration `TrafficLightPhase`. -/
inductive TrafficLightPhase where
  | red
  | green
  deriving DecidableEq, Repr

open TrafficLightPhase

/-- The data members `_currentPhase` and `_phaseQueue` of `TrafficLight`. -/
structure TrafficLight where
  _currentPhase : TrafficLightPhase
  _phaseQueue : MessageQueue TrafficLightPhase
  deriving DecidableEq, Repr

namespace TrafficLight

/-- Embeds `TrafficLight::TrafficLight()`: the phase is set to red; the queue member is
    default-constructed, with nothing pending. -/
def new : TrafficLight := ⟨red, MessageQueue.empty⟩

/-- Embeds `TrafficLight::getCurrentPhase`: `return _currentPhase;`. -/
def getCurrentPhase (l : TrafficLight) : TrafficLightPhase := l._currentPhase

/-- The critical section of `cycleThroughPhases` (lines 94-103): the phase is
    toggled, copied into `msgPhase`, and `msgPhase` is sent into the queue. -/
def changePhase (l : TrafficLight) : TrafficLight :=
  let newPhase := if l._currentPhase = green then red else green
  let msgPhase := newPhase
  { _currentPhase := newPhase, _phaseQueue := l._phaseQueue.send msgPhase }

set_option linter.unusedVariables false in
/-- The loop `while(_phaseQueue.receive() != green){}` of `waitForGreen`, run
    with no other thread touching the queue: each returned value other than
    green is discarded and the loop goes on; a `receive` that blocks blocks
    the loop. -/
def receiveUntilGreen (q : MessageQueue TrafficLightPhase) :
    Outcome (MessageQueue TrafficLightPhase) Unit :=
  match h : q.receive with
  | Outcome.blocked q1 => Outcome.blocked q1
  | Outcome.undefined => Outcome.undefined
  | Outcome.returned p q1 =>
    if p = green then Outcome.returned () q1 else receiveUntilGreen q1
termination_by q._queue.length
decreasing_by
  cases hq : q._queue with
  | nil => simp [MessageQueue.receive, hq] at h
  | cons x r =>
    simp only [MessageQueue.receive, hq, List.isEmpty_cons, List.head?_cons, List.tail_cons] at h
    simp only [Bool.false_eq_true, if_false] at h
    cases h
    simp

/-- Embeds `TrafficLight::waitForGreen`, run with no other thread interleaved: the
    phase is checked first; when it is not green the receive loop runs. -/
def waitForGreen (l : TrafficLight) : Outcome TrafficLight Unit :=
  if l._currentPhase = green then
    Outcome.returned () l
  else
    match receiveUntilGreen l._phaseQueue with
    | Outcome.blocked q => Outcome.blocked { l with _phaseQueue := q }
    | Outcome.returned _ q => Outcome.returned () { l with _phaseQueue := q }
    | Outcome.undefined => Outcome.undefined

/-- The light after the first `n` flips of the timer on a newly constructed
    light, with no caller receiving: its channel holds everything emitted. -/
def afterFlips : Nat → TrafficLight
  | 0 => new
  | n + 1 => (afterFlips n).changePhase

/-- The sequence green, red, green, red, ... of length `n`. -/
def alternating (n : Nat) : List TrafficLightPhase :=
  (List.range n).map (fun i => if i % 2 = 0 then green else red)

end TrafficLight

/-- The pending sequence has no two adjacent equal phases and, when it is not
    empty, ends with the current phase. -/
def Consistent (l : TrafficLight) : Prop :=
  List.Chain' (fun a b => a ≠ b) l._phaseQueue._queue ∧
  ∀ p, l._phaseQueue._queue.getLast? = some p → p = l._currentPhase

/-- One whole call on the light, run with no other thread interleaved: the
    flip of the timer, a `receive` on the channel, or `waitForGreen`. -/
inductive LightOp where
  | flip
  | receive
  | waitForGreen
  deriving DecidableEq, Repr

/-- The light as one whole call leaves it, whether the call returns or stays
    blocked. -/
def TrafficLight.apply (l : TrafficLight) : LightOp → TrafficLight
  | LightOp.flip => l.changePhase
  | LightOp.receive =>
    match l._phaseQueue.receive with
    | Outcome.returned _ q => { l with _phaseQueue := q }
    | Outcome.blocked q => { l with _phaseQueue := q }
    | Outcome.undefined => l
  | LightOp.waitForGreen =>
    match l.waitForGreen with
    | Outcome.returned _ l1 => l1
    | Outcome.blocked l1 => l1
    | Outcome.undefined => l

/-! ## The interleaving model

One timer thread runs `cycleThroughPhases`; every call of `waitForGreen` is
made by a caller of its own.  A step is one atomic action of one thread.  The
critical section of the timer holds `_mutex` from the write of `_currentPhase`
to the end of `send`, and the phase check of `waitForGreen` holds the same
mutex, so the two exclude each other and each is one step.  A `receive` takes
only the mutex of the queue and is one step as well; it neither reads nor
writes `_currentPhase`, so where the phase seen at a `receive` does not
matter the flip is taken as one step.  `FineSystem` below takes it apart. -/

/-- Where a caller stands in its call of `waitForGreen`. -/
inductive CallerPc where
  | idle
  | waiting
  | returned
  deriving DecidableEq, Repr

/-- One atomic action of one thread. `flip` is the critical section of the
    timer (lines 94-103), `enter i` is the phase check of caller `i`
    (lines 55-58), `recv i` is one `receive` of the loop of caller `i`
    (line 60). -/
inductive Action where
  | flip
  | enter (i : Nat)
  | recv (i : Nat)
  deriving DecidableEq, Repr

/-- The light, the program points of the callers, and the history of the
    phases sent by the timer so far. -/
structure System where
  light : TrafficLight
  callers : List CallerPc
  emitted : List TrafficLightPhase
  deriving DecidableEq, Repr

namespace System

/-- A newly constructed light with `n` callers that have not called yet. -/
def init (n : Nat) : System :=
  ⟨TrafficLight.new, List.replicate n CallerPc.idle, []⟩

/-- A light that is red with an empty channel while `n` callers are in the
    receive loop. -/
def allWaiting (n : Nat) : System :=
  ⟨TrafficLight.new, List.replicate n CallerPc.waiting, []⟩

/-- Runs one action; `none` when the action cannot be taken in this state (a
    `receive` on an empty queue stays blocked, a caller that is not at the
    program point of the action does not take it). -/
def step (s : System) : Action → Option System
  | Action.flip =>
    some { s with
      light := s.light.changePhase
      emitted := s.emitted ++ [s.light.changePhase._currentPhase] }
  | Action.enter i =>
    match s.callers[i]? with
    | some CallerPc.idle =>
      some { s with
        callers := s.callers.set i
          (if s.light._currentPhase = green then CallerPc.returned else CallerPc.waiting) }
    | _ => none
  | Action.recv i =>
    match s.callers[i]? with
    | some CallerPc.waiting =>
      match s.light._phaseQueue.receive with
      | Outcome.returned p q =>
        some { s with
          light := { s.light with _phaseQueue := q }
          callers := s.callers.set i
            (if p = green then CallerPc.returned else CallerPc.waiting) }
      | _ => none
    | _ => none

/-- Runs a schedule from left to right; `none` when one of its actions cannot
    be taken. -/
def run (s : System) : List Action → Option System
  | [] => some s
  | a :: rest =>
    match s.step a with
    | some s1 => run s1 rest
    | none => none

/-- Number of callers whose call has returned. -/
def numReturned (s : System) : Nat :=
  s.callers.count CallerPc.returned

/-- Number of callers that are in the receive loop. -/
def numWaiting (s : System) : Nat :=
  s.callers.count CallerPc.waiting

end System

/-- The bookkeeping of a scenario in which every caller entered on red: no
    caller is idle, every one of the `n` callers is waiting or has returned,
    and the calls returned so far together with the greens still pending
    account for exactly the greens emitted so far. -/
def Accounted (n : Nat) (s : System) : Prop :=
  (∀ c ∈ s.callers, c ≠ CallerPc.idle) ∧
  s.numReturned + s.numWaiting = n ∧
  s.numReturned + s.light._phaseQueue._queue.count green = s.emitted.count green

/-! ## The interleaving model with the flip in two steps

The flip of the timer holds `_mutex` from line 95 to line 103, but `receive`
takes only the mutex of the queue, and a caller in the loop of `waitForGreen`
no longer holds `_mutex`.  So a `receive` can run after the timer has written
`_currentPhase` and before it has sent.  Here the flip is two steps; the
phase check of `waitForGreen` needs `_mutex` and cannot run between them. -/

/-- Where the timer stands: outside the block of lines 94-103, or inside it
    with `_mutex` held and `_currentPhase` written but not yet sent. -/
inductive TimerPc where
  | outside
  | written
  deriving DecidableEq, Repr

/-- One atomic action of one thread. `flipWrite` takes `_mutex` and toggles
    `_currentPhase` (lines 95-99), `flipSend` sends the phase and releases
    `_mutex` (lines 101-103), `enter i` is the phase check of caller `i`
    (lines 55-58), `recv i` is one `receive` of the loop of caller `i`
    (line 60). -/
inductive FineAction where
  | flipWrite
  | flipSend
  | enter (i : Nat)
  | recv (i : Nat)
  deriving DecidableEq, Repr

/-- The light, the program point of the timer and those of the callers. -/
structure FineSystem where
  light : TrafficLight
  timer : TimerPc
  callers : List CallerPc
  deriving DecidableEq, Repr

namespace FineSystem

/-- A newly constructed light, the timer outside its block, and `n` callers
    that have not called yet. -/
def init (n : Nat) : FineSystem :=
  ⟨TrafficLight.new, TimerPc.outside, List.replicate n CallerPc.idle⟩

/-- Runs one action; `none` when the action cannot be taken in this state (the
    timer is not at that program point, `_mutex` is held by the timer, a
    `receive` on an empty queue stays blocked, a caller is not at the program
    point of the action). -/
def step (s : FineSystem) : FineAction → Option FineSystem
  | FineAction.flipWrite =>
    match s.timer with
    | TimerPc.outside =>
      some { s with
        light := { s.light with
          _currentPhase := if s.light._currentPhase = green then red else green }
        timer := TimerPc.written }
    | TimerPc.written => none
  | FineAction.flipSend =>
    match s.timer with
    | TimerPc.written =>
      some { s with
        light := { s.light with
          _phaseQueue := s.light._phaseQueue.send s.light._currentPhase }
        timer := TimerPc.outside }
    | TimerPc.outside => none
  | FineAction.enter i =>
    match s.timer, s.callers[i]? with
    | TimerPc.outside, some CallerPc.idle =>
      some { s with
        callers := s.callers.set i
          (if s.light._currentPhase = green then CallerPc.returned else CallerPc.waiting) }
    | _, _ => none
  | FineAction.recv i =>
    match s.callers[i]? with
    | some CallerPc.waiting =>
      match s.light._phaseQueue.receive with
      | Outcome.returned p q =>
        some { s with
          light := { s.light with _phaseQueue := q }
          callers := s.callers.set i
            (if p = green then CallerPc.returned else CallerPc.waiting) }
      | _ => none
    | _ => none

/-- Runs a schedule from left to right; `none` when one of its actions cannot
    be taken. -/
def run (s : FineSystem) : List FineAction → Option FineSystem
  | [] => some s
  | a :: rest =>
    match s.step a with
    | some s1 => run s1 rest
    | none => none

/-- The call of the caller of action `a` returns in the step that leads to
    `s1`: the fast path of `enter` or a `recv` that received green. -/
def returnsIn (a : FineAction) (s1 : FineSystem) : Bool :=
  match a with
  | FineAction.flipWrite => false
  | FineAction.flipSend => false
  | FineAction.enter i => decide (s1.callers[i]? = some CallerPc.returned)
  | FineAction.recv i => decide (s1.callers[i]? = some CallerPc.returned)

/-- The pending sequence has no two adjacent equal phases; when it is not
    empty its last element is the current phase while the timer is outside
    its block, and the other phase while the timer has written and not yet
    sent. -/
def Consistent (s : FineSystem) : Prop :=
  List.Chain' (fun a b => a ≠ b) s.light._phaseQueue._queue ∧
  ∀ p, s.light._phaseQueue._queue.getLast? = some p →
    (s.timer = TimerPc.outside → p = s.light._currentPhase) ∧
    (s.timer = TimerPc.written → p ≠ s.light._currentPhase)

end FineSystem

/-! ## Accesses to `_currentPhase` and the phase mutex -/

/-- The events of a member function that matter for the locking discipline of
    `_currentPhase`: taking and releasing `_mutex`, reading and writing
    `_currentPhase`, and calling into the queue. -/
inductive Access where
  | lockMutex
  | unlockMutex
  | readCurrentPhase
  | writeCurrentPhase
  | queueCall
  deriving DecidableEq, Repr

namespace Access

/-- Events of `getCurrentPhase` (lines 63-66): the member is read and returned. -/
def ofGetCurrentPhase : List Access :=
  [readCurrentPhase]

/-- Events of `waitForGreen` (lines 55-60) up to its first `receive`: the lock is taken,
    the phase is read, the lock is released (by the destructor on the early
    return, by `unlock()` otherwise), then the receive loop starts. -/
def ofWaitForGreen (l : TrafficLight) : List Access :=
  if l._currentPhase = green then [lockMutex, readCurrentPhase, unlockMutex]
  else [lockMutex, readCurrentPhase, unlockMutex, queueCall]

/-- Events of the flip of `cycleThroughPhases` (lines 94-103): the lock is taken, the
    phase is read, written, read again into `msgPhase`, sent, and the lock is
    released at the end of the block. -/
def ofChangePhase : List Access :=
  [lockMutex, readCurrentPhase, writeCurrentPhase, readCurrentPhase, queueCall, unlockMutex]

/-- Whether every read and write of `_currentPhase` in a sequence of events
    happens while `_mutex` is held; `held` tells whether it is held at the
    start. -/
def underLock (held : Bool) : List Access → Bool
  | [] => true
  | lockMutex :: rest => underLock true rest
  | unlockMutex :: rest => underLock false rest
  | readCurrentPhase :: rest => held && underLock held rest
  | writeCurrentPhase :: rest => held && underLock held rest
  | queueCall :: rest => underLock held rest

end Access

/-! ## Double precision

The timer computes its target in `double`: the draw of the engine is scaled in
`double`, and the target is a `time_point` whose duration is a `double` count
of nanoseconds.  A `double` operation is the exact operation followed by
rounding to the nearest value with a 53-bit significand, ties to even.  The
exponent range is not modelled: every value that occurs here lies far inside
it. -/

/-- Rounds a rational to the nearest integer, ties to the even one. -/
def roundHalfEven (q : ℚ) : ℤ :=
  if q - ⌊q⌋ < 1 / 2 then ⌊q⌋
  else if 1 / 2 < q - ⌊q⌋ then ⌊q⌋ + 1
  else if ⌊q⌋ % 2 = 0 then ⌊q⌋ else ⌊q⌋ + 1

/-- Rounds a rational to the nearest `double`, ties to even: with
    `2 ^ e ≤ |x| < 2 ^ (e + 1)` the unit in the last place is `2 ^ (e - 52)`
    and `x` is rounded to a multiple of it. -/
def roundDouble (x : ℚ) : ℚ :=
  if x = 0 then 0
  else (roundHalfEven (x / 2 ^ (Int.log 2 |x| - 52)) : ℚ) * 2 ^ (Int.log 2 |x| - 52)

/-! ## The timer loop

Clock readings are counts of nanoseconds, as `steady_clock::now()` returns
them.  The loop is run against the successive readings made by the timer
thread, in program order, and the successive draws of the random engine. -/

/-- Embeds `CrossThreadRandom::getUniformReal(min, max)`: the value of
    `std::uniform_real_distribution<double>(min, max)` on the engine, that is
    the draw `u` of the engine in `[0, 1)` scaled to `u * (max - min) + min`,
    each operation in `double`. -/
def CrossThreadRandom.getUniformReal (min max u : ℚ) : ℚ :=
  roundDouble (roundDouble (u * roundDouble (max - min)) + min)

/-- One phase change of the timer: the value of `tNextChange` that was tested,
    the clock reading of line 92 that passed the test, the clock reading of
    line 106 made after the critical section (none when the readings supplied
    end before it), and the phase that was sent.  The emission itself happens
    after `polled` and before `after`. -/
structure Emission where
  target : ℚ
  polled : ℚ
  after : Option ℚ
  phase : TrafficLightPhase
  deriving DecidableEq, Repr

namespace TrafficLight

/-- The expression
    `steady_clock::now() + duration<double>(_random.getUniformReal(4.0, 6.0))`
    of lines 85 and 106: the reading is converted to a `double` count of
    nanoseconds, the duration in seconds is converted to nanoseconds by a
    `double` multiplication, and the two are added in `double`. -/
def nextChange (now u : ℚ) : ℚ :=
  roundDouble (roundDouble now
    + roundDouble (CrossThreadRandom.getUniformReal 4 6 u * 1000000000))

/-- The `while(true)` loop of `cycleThroughPhases` (lines 87-108).  Each
    iteration reads the clock; when the reading, converted to `double`, has
    reached `tNextChange` the phase is changed and sent, and `tNextChange` is
    recomputed from a new clock reading and a new draw; otherwise nothing
    happens.  The sleep of line 90 only lets time pass.  The run ends when the
    readings or the draws supplied are used up. -/
def cycleLoop (l : TrafficLight) (tNextChange : ℚ) : List ℚ → List ℚ → List Emission
  | [], _ => []
  | now :: clock, draws =>
    if tNextChange ≤ roundDouble now then
      match clock, draws with
      | now2 :: clock2, u :: draws2 =>
        ⟨tNextChange, now, some now2, l.changePhase._currentPhase⟩ ::
          cycleLoop l.changePhase (nextChange now2 u) clock2 draws2
      | _, _ => [⟨tNextChange, now, none, l.changePhase._currentPhase⟩]
    else
      cycleLoop l tNextChange clock draws

/-- Embeds `TrafficLight::cycleThroughPhases` (lines 75-109): the first target
    is computed from the first clock reading and the first draw (line 85),
    then the loop runs.  The result is the list of phase changes performed. -/
def cycleThroughPhases (l : TrafficLight) : List ℚ → List ℚ → List Emission
  | now0 :: clock, u0 :: draws => cycleLoop l (nextChange now0 u0) clock draws
  | _, _ => []

end TrafficLight

/-- A clock reading that is a whole number of nanoseconds and lies at least
    6 seconds below `2 ^ 53` nanoseconds (about 104 days), the range in which
    every count of nanoseconds is a `double`. -/
def ExactTick (t : ℚ) : Prop :=
  ∃ n : ℕ, t = n ∧ n + 6000000000 ≤ 2 ^ 53

/-! ## Sample inputs -/

/-- A schedule for ten waiting callers: ten greens are emitted; caller `k`
    receives green number `k + 1` and returns, and caller `k + 1` receives the
    red that follows and keeps waiting. -/
def tenGreensSchedule : List Action :=
  ((List.range 9).flatMap (fun k =>
    [Action.flip, Action.recv k, Action.flip, Action.recv (k + 1)]))
  ++ [Action.flip, Action.recv 9]

/-- The state reached by `tenGreensSchedule`: the light is green, the channel
    is empty, all ten callers have returned, nineteen phases were emitted. -/
def tenGreensFinal : System :=
  ⟨⟨green, ⟨[]⟩⟩, List.replicate 10 CallerPc.returned, TrafficLight.alternating 19⟩

theorem MessageQueue.receive_nil {T : Type} (q : MessageQueue T) (h : q._queue = []) :
    q.receive = Outcome.blocked q := by
  simp [MessageQueue.receive, h]

theorem MessageQueue.receive_cons {T : Type} (q : MessageQueue T) (x : T) (r : List T)
    (h : q._queue = x :: r) : q.receive = Outcome.returned x ⟨r⟩ := by
  simp [MessageQueue.receive, h]

theorem MessageQueue.sendAll_queue {T : Type} (vs : List T) (q : MessageQueue T) :
    (q.sendAll vs)._queue = q._queue ++ vs := by
  induction vs generalizing q with
  | nil => simp [MessageQueue.sendAll]
  | cons v vs ih => simp [MessageQueue.sendAll, ih, MessageQueue.send]

theorem MessageQueue.receiveN_append {T : Type} (vs rest : List T) :
    (MessageQueue.mk (vs ++ rest)).receiveN vs.length = some (vs, ⟨rest⟩) := by
  induction vs with
  | nil => simp [MessageQueue.receiveN]
  | cons v vs ih =>
    simp only [List.length_cons, MessageQueue.receiveN]
    rw [MessageQueue.receive_cons _ v (vs ++ rest) (by simp)]
    simp [ih]

theorem MessageQueue.Trace.step_conserves {T : Type} (t : Trace T) (op : Op T)
    (h : t.received ++ t.queue._queue = t.sent) :
    (t.step op).received ++ (t.step op).queue._queue = (t.step op).sent := by
  cases op with
  | send msg => simp [Trace.step, MessageQueue.send, ← h]
  | receive =>
    cases hq : t.queue._queue with
    | nil =>
      simp only [Trace.step, MessageQueue.receive_nil _ hq]
      exact h
    | cons x r =>
      simp only [Trace.step, MessageQueue.receive_cons _ x r hq]
      simp [← h, hq]

theorem MessageQueue.Trace.run_conserves {T : Type} (ops : List (Op T)) (t : Trace T)
    (h : t.received ++ t.queue._queue = t.sent) :
    (t.run ops).received ++ (t.run ops).queue._queue = (t.run ops).sent := by
  induction ops generalizing t with
  | nil => simpa [Trace.run] using h
  | cons op ops ih =>
    simp only [Trace.run, List.foldl_cons]
    exact ih (t.step op) (Trace.step_conserves t op h)

/-! ## Claims on the queue -/

/-- C1: MessageQueue is a FIFO with exactly-once delivery.  After sending the
    values of `vs` in order into an empty queue, `|vs|` successive `receive`
    calls all return, the values they return are exactly `vs` in the same
    order, and the queue is left empty; and for any interleaving of sends and
    receives run from an empty queue, the values received so far followed by
    the values still pending are exactly the values sent so far, so that the
    received values are a prefix of the sent values. -/
theorem C1_fifo_exactly_once {T : Type} :
    (∀ vs : List T,
      ((MessageQueue.empty : MessageQueue T).sendAll vs).receiveN vs.length
        = some (vs, MessageQueue.empty)) ∧
    (∀ ops : List (MessageQueue.Op T),
      (MessageQueue.Trace.init.run ops).received ++ (MessageQueue.Trace.init.run ops).queue._queue
          = (MessageQueue.Trace.init.run ops).sent ∧
      (MessageQueue.Trace.init.run ops).received <+: (MessageQueue.Trace.init.run ops).sent) := by
  refine ⟨?_, ?_⟩
  · intro vs
    have h : (MessageQueue.empty : MessageQueue T).sendAll vs = ⟨vs ++ []⟩ := by
      have := MessageQueue.sendAll_queue vs (MessageQueue.empty : MessageQueue T)
      cases hq : (MessageQueue.empty : MessageQueue T).sendAll vs with
      | mk l =>
        rw [hq] at this
        simp [MessageQueue.empty] at this
        simp [this]
    rw [h]
    exact MessageQueue.receiveN_append vs []
  · intro ops
    have h := MessageQueue.Trace.run_conserves ops (MessageQueue.Trace.init : MessageQueue.Trace T)
      (by simp [MessageQueue.Trace.init, MessageQueue.empty])
    exact ⟨h, ⟨_, h⟩⟩

/-- C2: `receive` never returns without a value.  When the pending sequence is
    `x :: rest` the call returns `x` and leaves exactly `rest`; when the pending
    sequence is empty the call does not return, it stays blocked on the
    unchanged queue; and in no state does the call evaluate `front()` on an
    empty sequence. -/
theorem C2_receive_front_or_blocked {T : Type} (q : MessageQueue T) :
    (∀ x rest, q._queue = x :: rest → q.receive = Outcome.returned x ⟨rest⟩) ∧
    (q._queue = [] → q.receive = Outcome.blocked q) ∧
    q.receive ≠ Outcome.undefined := by
  refine ⟨fun x rest h => MessageQueue.receive_cons q x rest h,
    fun h => MessageQueue.receive_nil q h, ?_⟩
  cases hq : q._queue with
  | nil => simp [MessageQueue.receive_nil q hq]
  | cons x r => simp [MessageQueue.receive_cons q x r hq]

/-! ## The caller side, run alone -/

theorem TrafficLight.receiveUntilGreen_nil (q : MessageQueue TrafficLightPhase)
    (h : q._queue = []) : TrafficLight.receiveUntilGreen q = Outcome.blocked q := by
  unfold TrafficLight.receiveUntilGreen
  split
  · next q1 hr => rw [MessageQueue.receive_nil q h] at hr; cases hr; rfl
  · next hr => rw [MessageQueue.receive_nil q h] at hr; cases hr
  · next p q1 hr => rw [MessageQueue.receive_nil q h] at hr; cases hr

theorem TrafficLight.receiveUntilGreen_green (q : MessageQueue TrafficLightPhase)
    (r : List TrafficLightPhase) (h : q._queue = green :: r) :
    TrafficLight.receiveUntilGreen q = Outcome.returned () ⟨r⟩ := by
  unfold TrafficLight.receiveUntilGreen
  split
  · next q1 hr => rw [MessageQueue.receive_cons q _ r h] at hr; cases hr
  · next hr => rw [MessageQueue.receive_cons q _ r h] at hr; cases hr
  · next p q1 hr =>
    rw [MessageQueue.receive_cons q _ r h] at hr
    cases hr
    simp

theorem TrafficLight.receiveUntilGreen_red (q : MessageQueue TrafficLightPhase)
    (r : List TrafficLightPhase) (h : q._queue = red :: r) :
    TrafficLight.receiveUntilGreen q = TrafficLight.receiveUntilGreen ⟨r⟩ := by
  conv_lhs => unfold TrafficLight.receiveUntilGreen
  split
  · next q1 hr => rw [MessageQueue.receive_cons q _ r h] at hr; cases hr
  · next hr => rw [MessageQueue.receive_cons q _ r h] at hr; cases hr
  · next p q1 hr =>
    rw [MessageQueue.receive_cons q _ r h] at hr
    cases hr
    simp

theorem TrafficLight.receiveUntilGreen_first_green (pre post : List TrafficLightPhase)
    (hpre : ∀ p ∈ pre, p = red) :
    TrafficLight.receiveUntilGreen ⟨pre ++ green :: post⟩ = Outcome.returned () ⟨post⟩ := by
  induction pre with
  | nil => exact TrafficLight.receiveUntilGreen_green _ post rfl
  | cons x pre ih =>
    have hx : x = red := hpre x (List.mem_cons_self x pre)
    subst hx
    rw [TrafficLight.receiveUntilGreen_red ⟨red :: pre ++ green :: post⟩
      (pre ++ green :: post) rfl]
    exact ih (fun p hp => hpre p (List.mem_cons_of_mem _ hp))

theorem TrafficLight.receiveUntilGreen_all_red (q : List TrafficLightPhase)
    (hq : ∀ p ∈ q, p = red) :
    TrafficLight.receiveUntilGreen ⟨q⟩ = Outcome.blocked ⟨[]⟩ := by
  induction q with
  | nil => exact TrafficLight.receiveUntilGreen_nil _ rfl
  | cons x q ih =>
    have hx : x = red := hq x (List.mem_cons_self x q)
    subst hx
    rw [TrafficLight.receiveUntilGreen_red _ q rfl]
    exact ih (fun p hp => hq p (List.mem_cons_of_mem _ hp))

theorem TrafficLightPhase.eq_red_of_ne_green (p : TrafficLightPhase) (h : p ≠ green) :
    p = red := by
  cases p
  · rfl
  · exact absurd rfl h

theorem TrafficLight.split_first_green (q : List TrafficLightPhase) (hg : green ∈ q) :
    ∃ pre post, q = pre ++ green :: post ∧ ∀ p ∈ pre, p = red := by
  induction q with
  | nil => cases hg
  | cons x q ih =>
    by_cases hx : x = green
    · exact ⟨[], q, by simp [hx], by simp⟩
    · have hg1 : green ∈ q := by
        rcases List.mem_cons.mp hg with h | h
        · exact absurd h.symm hx
        · exact h
      obtain ⟨pre, post, hq, hpre⟩ := ih hg1
      refine ⟨x :: pre, post, by simp [hq], ?_⟩
      intro p hp
      rcases List.mem_cons.mp hp with h | h
      · rw [h]; exact TrafficLightPhase.eq_red_of_ne_green x hx
      · exact hpre p h

/-- C3: waitForGreen slow path.  When the current phase is red and the pending
    sequence of the channel contains a green, the pending sequence splits as
    `pre ++ green :: post` with every element of `pre` red, and `waitForGreen`
    returns with pending sequence exactly `post` and the current phase as it
    was: it has removed the elements up to and including the first green and
    nothing else. -/
theorem C3_waitForGreen_slow_path (l : TrafficLight) (hred : l._currentPhase = red)
    (hg : green ∈ l._phaseQueue._queue) :
    ∃ pre post, l._phaseQueue._queue = pre ++ green :: post ∧ (∀ p ∈ pre, p = red) ∧
      l.waitForGreen = Outcome.returned () ⟨l._currentPhase, ⟨post⟩⟩ := by
  obtain ⟨pre, post, hq, hpre⟩ := TrafficLight.split_first_green _ hg
  refine ⟨pre, post, hq, hpre, ?_⟩
  have hloop : TrafficLight.receiveUntilGreen l._phaseQueue = Outcome.returned () ⟨post⟩ := by
    have h := TrafficLight.receiveUntilGreen_first_green pre post hpre
    rw [← hq] at h
    exact h
  simp [TrafficLight.waitForGreen, hred, hloop]

/-- Witness of C3 on the channel red, green, red with the light red. -/
theorem C3_waitForGreen_slow_path_witness :
    ∃ pre post, [red, green, red] = pre ++ green :: post ∧ (∀ p ∈ pre, p = red) ∧
      (TrafficLight.mk red ⟨[red, green, red]⟩).waitForGreen
        = Outcome.returned () ⟨red, ⟨post⟩⟩ :=
  C3_waitForGreen_slow_path ⟨red, ⟨[red, green, red]⟩⟩ rfl (by decide)

/-- C4: waitForGreen fast path.  When the current phase is green, `waitForGreen`
    returns at once with the light exactly as it was, channel and current phase
    included, whatever the channel contains. -/
theorem C4_waitForGreen_fast_path (l : TrafficLight) (hgreen : l._currentPhase = green) :
    l.waitForGreen = Outcome.returned () l := by
  simp [TrafficLight.waitForGreen, hgreen]

/-- Witness of C4 on a green light whose channel holds green, red, green. -/
theorem C4_waitForGreen_fast_path_witness :
    (TrafficLight.mk green ⟨[green, red, green]⟩).waitForGreen
      = Outcome.returned () ⟨green, ⟨[green, red, green]⟩⟩ :=
  C4_waitForGreen_fast_path ⟨green, ⟨[green, red, green]⟩⟩ rfl

/-! ## The timer side: flips -/

theorem TrafficLight.changePhase_phase_ne (l : TrafficLight) :
    l.changePhase._currentPhase ≠ l._currentPhase := by
  cases h : l._currentPhase <;> simp [TrafficLight.changePhase, h]

theorem TrafficLight.changePhase_queue (l : TrafficLight) :
    l.changePhase._phaseQueue._queue = l._phaseQueue._queue ++ [l.changePhase._currentPhase] := by
  simp [TrafficLight.changePhase, MessageQueue.send]

theorem TrafficLight.alternating_succ (n : Nat) :
    TrafficLight.alternating (n + 1)
      = TrafficLight.alternating n ++ [if n % 2 = 0 then green else red] := by
  simp [TrafficLight.alternating, List.range_succ]

theorem TrafficLight.afterFlips_spec (n : Nat) :
    (TrafficLight.afterFlips n)._phaseQueue._queue = TrafficLight.alternating n ∧
    (TrafficLight.afterFlips n)._currentPhase = (if n % 2 = 0 then red else green) := by
  induction n with
  | zero => simp [TrafficLight.afterFlips, TrafficLight.new, MessageQueue.empty,
      TrafficLight.alternating]
  | succ n ih =>
    obtain ⟨hq, hp⟩ := ih
    have hnew : (TrafficLight.afterFlips (n + 1))._currentPhase
        = (if n % 2 = 0 then green else red) := by
      simp only [TrafficLight.afterFlips, TrafficLight.changePhase, hp]
      split <;> simp
    refine ⟨?_, ?_⟩
    · rw [TrafficLight.alternating_succ, ← hnew]
      simp only [TrafficLight.afterFlips]
      rw [TrafficLight.changePhase_queue, hq]
    · rw [hnew]
      rcases Nat.mod_two_eq_zero_or_one n with h | h
      · have h1 : (n + 1) % 2 = 1 := by omega
        simp [h, h1]
      · have h1 : (n + 1) % 2 = 0 := by omega
        simp [h, h1]

theorem TrafficLight.alternating_chain (n : Nat) :
    List.Chain' (fun a b => a ≠ b) (TrafficLight.alternating n) := by
  induction n with
  | zero => simp [TrafficLight.alternating]
  | succ n ih =>
    rw [TrafficLight.alternating_succ, List.chain'_append]
    refine ⟨ih, List.chain'_singleton _, ?_⟩
    intro x hx y hy
    simp only [List.head?_cons, Option.mem_def, Option.some.injEq] at hy
    cases n with
    | zero => simp [TrafficLight.alternating] at hx
    | succ m =>
      rw [TrafficLight.alternating_succ, List.getLast?_concat] at hx
      simp only [Option.mem_def, Option.some.injEq] at hx
      subst hx
      subst hy
      rcases Nat.mod_two_eq_zero_or_one m with h | h
      · have h1 : (m + 1) % 2 = 1 := by omega
        simp [h, h1]
      · have h1 : (m + 1) % 2 = 0 := by omega
        simp [h, h1]

theorem TrafficLight.cycleLoop_unfold_skip (l : TrafficLight) (tNext now : ℚ)
    (clock draws : List ℚ) (h : ¬ tNext ≤ roundDouble now) :
    l.cycleLoop tNext (now :: clock) draws = l.cycleLoop tNext clock draws := by
  conv_lhs => unfold TrafficLight.cycleLoop
  simp [h]

theorem TrafficLight.cycleLoop_unfold_flip (l : TrafficLight) (tNext now now2 u : ℚ)
    (clock2 draws2 : List ℚ) (h : tNext ≤ roundDouble now) :
    l.cycleLoop tNext (now :: now2 :: clock2) (u :: draws2)
      = ⟨tNext, now, some now2, l.changePhase._currentPhase⟩ ::
          l.changePhase.cycleLoop (TrafficLight.nextChange now2 u) clock2 draws2 := by
  conv_lhs => unfold TrafficLight.cycleLoop
  simp [h]

theorem TrafficLight.cycleLoop_unfold_stop (l : TrafficLight) (tNext now : ℚ)
    (clock draws : List ℚ) (h : tNext ≤ roundDouble now)
    (hstop : ∀ (now2 : ℚ) (clock2 : List ℚ) (u : ℚ) (draws2 : List ℚ),
      clock = now2 :: clock2 → draws = u :: draws2 → False) :
    l.cycleLoop tNext (now :: clock) draws
      = [⟨tNext, now, none, l.changePhase._currentPhase⟩] := by
  cases clock with
  | nil => simp [TrafficLight.cycleLoop, h]
  | cons now2 clock2 =>
    cases draws with
    | nil => simp [TrafficLight.cycleLoop, h]
    | cons u draws2 => exact absurd rfl (fun e => hstop now2 clock2 u draws2 rfl e)

theorem TrafficLight.cycleLoop_phases (l : TrafficLight) (tNext : ℚ) (clock draws : List ℚ) :
    List.Chain' (fun a b => a ≠ b) ((l.cycleLoop tNext clock draws).map Emission.phase) ∧
    ∀ p ∈ ((l.cycleLoop tNext clock draws).map Emission.phase).head?,
      p = l.changePhase._currentPhase := by
  refine TrafficLight.cycleLoop.induct
    (fun l tNext clock draws =>
      List.Chain' (fun a b => a ≠ b) ((l.cycleLoop tNext clock draws).map Emission.phase) ∧
      ∀ p ∈ ((l.cycleLoop tNext clock draws).map Emission.phase).head?,
        p = l.changePhase._currentPhase)
    ?_ ?_ ?_ ?_ l tNext clock draws
  · intro l tNext draws
    simp [TrafficLight.cycleLoop]
  · intro l tNext now hle now2 clock2 u draws2 ih
    obtain ⟨ihA, ihB⟩ := ih
    rw [TrafficLight.cycleLoop_unfold_flip l tNext now now2 u clock2 draws2 hle]
    simp only [List.map_cons]
    refine ⟨?_, ?_⟩
    · rw [List.chain'_cons']
      refine ⟨?_, ihA⟩
      intro p hp
      rw [ihB p hp]
      exact fun e => l.changePhase.changePhase_phase_ne e.symm
    · intro p hp
      simp only [List.head?_cons, Option.mem_def, Option.some.injEq] at hp
      exact hp.symm
  · intro l tNext now clock draws hle hstop
    rw [TrafficLight.cycleLoop_unfold_stop l tNext now clock draws hle hstop]
    simp
  · intro l tNext now clock draws hlt ih
    rw [TrafficLight.cycleLoop_unfold_skip l tNext now clock draws hlt]
    exact ih

/-- C5: phase alternation.  A newly constructed light is red with an empty
    channel; every flip sets the current phase to the value other than the
    previous one and appends exactly that new value to the channel; hence the
    phases emitted by the first `n` flips on a fresh light are green, red,
    green, red, ... with no two consecutive emissions equal, one emission per
    flip, and the phase after `n` flips is green exactly when `n` is odd; and
    whatever the clock readings and the draws, the phases sent by
    `cycleThroughPhases` on a fresh light start with green and no two
    consecutive ones are equal. -/
theorem C5_phase_alternation :
    TrafficLight.new._currentPhase = red ∧
    TrafficLight.new._phaseQueue._queue = [] ∧
    (∀ l : TrafficLight,
      l.changePhase._currentPhase ≠ l._currentPhase ∧
      l.changePhase._phaseQueue._queue
        = l._phaseQueue._queue ++ [l.changePhase._currentPhase]) ∧
    (∀ n : Nat,
      (TrafficLight.afterFlips n)._phaseQueue._queue = TrafficLight.alternating n ∧
      (TrafficLight.afterFlips n)._phaseQueue._queue.length = n ∧
      (TrafficLight.afterFlips n)._currentPhase = (if n % 2 = 0 then red else green) ∧
      List.Chain' (fun a b => a ≠ b) (TrafficLight.afterFlips n)._phaseQueue._queue) ∧
    (∀ clock draws : List ℚ,
      List.Chain' (fun a b => a ≠ b)
        ((TrafficLight.new.cycleThroughPhases clock draws).map Emission.phase) ∧
      ∀ p ∈ ((TrafficLight.new.cycleThroughPhases clock draws).map Emission.phase).head?,
        p = green) := by
  refine ⟨rfl, rfl, fun l => ⟨l.changePhase_phase_ne, l.changePhase_queue⟩, fun n => ?_, ?_⟩
  · obtain ⟨hq, hp⟩ := TrafficLight.afterFlips_spec n
    refine ⟨hq, ?_, hp, ?_⟩
    · rw [hq]; simp [TrafficLight.alternating]
    · rw [hq]; exact TrafficLight.alternating_chain n
  · intro clock draws
    cases clock with
    | nil => simp [TrafficLight.cycleThroughPhases]
    | cons now0 clock1 =>
      cases draws with
      | nil => simp [TrafficLight.cycleThroughPhases]
      | cons u0 draws1 =>
        simp only [TrafficLight.cycleThroughPhases]
        exact TrafficLight.cycleLoop_phases TrafficLight.new _ clock1 draws1

/-! ## The interleaving model: what a step does -/

theorem System.step_flip (s : System) :
    s.step Action.flip
      = some ⟨s.light.changePhase, s.callers, s.emitted ++ [s.light.changePhase._currentPhase]⟩ :=
  rfl

theorem System.step_enter (s s1 : System) (i : Nat) (h : s.step (Action.enter i) = some s1) :
    s.callers[i]? = some CallerPc.idle ∧
    s1 = ⟨s.light, s.callers.set i
      (if s.light._currentPhase = green then CallerPc.returned else CallerPc.waiting),
      s.emitted⟩ := by
  simp only [System.step] at h
  split at h
  · next hc =>
    simp only [Option.some.injEq] at h
    exact ⟨hc, h.symm⟩
  · cases h

theorem System.step_recv (s s1 : System) (i : Nat) (h : s.step (Action.recv i) = some s1) :
    s.callers[i]? = some CallerPc.waiting ∧
    ∃ p r, s.light._phaseQueue._queue = p :: r ∧
      s1 = ⟨⟨s.light._currentPhase, ⟨r⟩⟩, s.callers.set i
        (if p = green then CallerPc.returned else CallerPc.waiting), s.emitted⟩ := by
  simp only [System.step] at h
  split at h
  · next hc =>
    refine ⟨hc, ?_⟩
    cases hq : s.light._phaseQueue._queue with
    | nil =>
      rw [MessageQueue.receive_nil _ hq] at h
      cases h
    | cons p r =>
      rw [MessageQueue.receive_cons _ p r hq] at h
      simp only [Option.some.injEq] at h
      exact ⟨p, r, rfl, h.symm⟩
  · cases h

theorem System.step_recv_enabled (s : System) (i : Nat)
    (hc : s.callers[i]? = some CallerPc.waiting) (hq : s.light._phaseQueue._queue ≠ []) :
    (s.step (Action.recv i)).isSome = true := by
  cases hl : s.light._phaseQueue._queue with
  | nil => exact absurd hl hq
  | cons p r =>
    simp only [System.step, hc]
    rw [MessageQueue.receive_cons _ p r hl]
    rfl

/-- An invariant of the steps holds after every schedule. -/
theorem System.run_induction (P : System → Prop)
    (hstep : ∀ s a s1, P s → s.step a = some s1 → P s1)
    (sched : List Action) (s s1 : System) (h0 : P s) (hrun : s.run sched = some s1) : P s1 := by
  induction sched generalizing s with
  | nil =>
    simp only [System.run, Option.some.injEq] at hrun
    exact hrun ▸ h0
  | cons a rest ih =>
    simp only [System.run] at hrun
    cases hs : s.step a with
    | none => rw [hs] at hrun; cases hrun
    | some s2 =>
      rw [hs] at hrun
      exact ih s2 (hstep s a s2 h0 hs) hrun

/-! ## Channel and phase stay consistent -/

theorem Consistent.new : Consistent TrafficLight.new := by
  simp [Consistent, TrafficLight.new, MessageQueue.empty]

theorem Consistent.changePhase (l : TrafficLight) (h : Consistent l) :
    Consistent l.changePhase := by
  obtain ⟨hc, hl⟩ := h
  refine ⟨?_, ?_⟩
  · rw [TrafficLight.changePhase_queue, List.chain'_append]
    refine ⟨hc, List.chain'_singleton _, ?_⟩
    intro x hx y hy
    simp only [List.head?_cons, Option.mem_def, Option.some.injEq] at hy
    simp only [Option.mem_def] at hx
    rw [hl x hx, ← hy]
    exact fun e => l.changePhase_phase_ne e.symm
  · intro p hp
    rw [TrafficLight.changePhase_queue, List.getLast?_concat] at hp
    simp only [Option.some.injEq] at hp
    exact hp.symm

theorem Consistent.pop (c p : TrafficLightPhase) (r : List TrafficLightPhase)
    (h : Consistent ⟨c, ⟨p :: r⟩⟩) : Consistent ⟨c, ⟨r⟩⟩ := by
  obtain ⟨hc, hl⟩ := h
  refine ⟨hc.tail, ?_⟩
  intro x hx
  cases r with
  | nil => simp at hx
  | cons y r =>
    apply hl x
    simp only [List.getLast?_cons_cons]
    exact hx

theorem System.step_consistent (s : System) (a : Action) (s1 : System)
    (h : Consistent s.light) (hs : s.step a = some s1) : Consistent s1.light := by
  cases a with
  | flip =>
    rw [System.step_flip] at hs
    simp only [Option.some.injEq] at hs
    rw [← hs]
    exact Consistent.changePhase _ h
  | enter i =>
    obtain ⟨_, h1⟩ := System.step_enter s s1 i hs
    rw [h1]
    exact h
  | recv i =>
    obtain ⟨_, p, r, hq, h1⟩ := System.step_recv s s1 i hs
    rw [h1]
    apply Consistent.pop s.light._currentPhase p r
    have : s.light = ⟨s.light._currentPhase, ⟨p :: r⟩⟩ := by
      cases hl : s.light with
      | mk c q =>
        cases q with
        | mk l =>
          rw [hl] at hq
          simp only at hq
          simp [hq]
    rw [← this]
    exact h

theorem System.run_consistent (n : Nat) (sched : List Action) (s : System)
    (hrun : (System.init n).run sched = some s) : Consistent s.light :=
  System.run_induction (fun s => Consistent s.light)
    (fun s a s1 h hs => System.step_consistent s a s1 h hs) sched (System.init n) s
    Consistent.new hrun

theorem Consistent.suffix (c : TrafficLightPhase) (q q1 : List TrafficLightPhase)
    (h : Consistent ⟨c, ⟨q⟩⟩) (hs : q1 <:+ q) : Consistent ⟨c, ⟨q1⟩⟩ := by
  obtain ⟨hc, hl⟩ := h
  refine ⟨hc.suffix hs, ?_⟩
  intro p hp
  obtain ⟨pre, rfl⟩ := hs
  apply hl p
  simp only at hp ⊢
  rw [List.getLast?_append, hp]
  rfl

theorem TrafficLight.receiveUntilGreen_suffix (q : List TrafficLightPhase) :
    ∃ q1, q1 <:+ q ∧
      (TrafficLight.receiveUntilGreen ⟨q⟩ = Outcome.returned () ⟨q1⟩ ∨
        TrafficLight.receiveUntilGreen ⟨q⟩ = Outcome.blocked ⟨q1⟩) := by
  induction q with
  | nil => exact ⟨[], List.suffix_refl _, Or.inr (TrafficLight.receiveUntilGreen_nil _ rfl)⟩
  | cons x r ih =>
    cases x with
    | green =>
      exact ⟨r, List.suffix_cons _ r, Or.inl (TrafficLight.receiveUntilGreen_green _ r rfl)⟩
    | red =>
      obtain ⟨q1, hs, h⟩ := ih
      refine ⟨q1, hs.trans (List.suffix_cons _ r), ?_⟩
      rw [TrafficLight.receiveUntilGreen_red ⟨red :: r⟩ r rfl]
      exact h

theorem TrafficLight.apply_frame (l : TrafficLight) (op : LightOp) (hop : op ≠ LightOp.flip) :
    (l.apply op)._currentPhase = l._currentPhase ∧
    (l.apply op)._phaseQueue._queue <:+ l._phaseQueue._queue := by
  cases op with
  | flip => exact absurd rfl hop
  | receive =>
    cases hq : l._phaseQueue._queue with
    | nil =>
      simp only [TrafficLight.apply, MessageQueue.receive_nil _ hq]
      exact ⟨trivial, by rw [hq]⟩
    | cons x r =>
      simp only [TrafficLight.apply, MessageQueue.receive_cons _ x r hq]
      exact ⟨trivial, List.suffix_cons x r⟩
  | waitForGreen =>
    by_cases hg : l._currentPhase = green
    · simp only [TrafficLight.apply, TrafficLight.waitForGreen, hg, if_true]
      exact ⟨trivial, List.suffix_refl _⟩
    · obtain ⟨q1, hs, h⟩ := TrafficLight.receiveUntilGreen_suffix l._phaseQueue._queue
      have hq : (MessageQueue.mk l._phaseQueue._queue) = l._phaseQueue := rfl
      rw [hq] at h
      rcases h with h | h <;>
        simp only [TrafficLight.apply, TrafficLight.waitForGreen, hg, if_false, h] <;>
        exact ⟨trivial, hs⟩

theorem TrafficLight.apply_consistent (l : TrafficLight) (op : LightOp) (h : Consistent l) :
    Consistent (l.apply op) := by
  by_cases hop : op = LightOp.flip
  · subst hop
    exact Consistent.changePhase l h
  · obtain ⟨hp, hs⟩ := TrafficLight.apply_frame l op hop
    have := Consistent.suffix l._currentPhase l._phaseQueue._queue
      (l.apply op)._phaseQueue._queue h hs
    rw [← hp] at this
    exact this

theorem TrafficLight.foldl_apply_consistent (ops : List LightOp) (l : TrafficLight)
    (h : Consistent l) : Consistent (ops.foldl TrafficLight.apply l) := by
  induction ops generalizing l with
  | nil => exact h
  | cons op ops ih => exact ih (l.apply op) (TrafficLight.apply_consistent l op h)

/-- C10: channel/phase consistency.  In every state reached from a newly
    constructed light (red, empty channel, any number of callers) by any
    schedule of timer flips, phase checks and receives of `waitForGreen`
    callers, the pending sequence has no two adjacent equal phases and, when
    it is not empty, its last element is the current phase; every step other
    than a timer flip leaves the current phase and the emission history
    unchanged and leaves as pending sequence a suffix of the previous one, so
    only the flip changes the phase and only the flip appends.  The same holds
    when flips, `receive` calls and `waitForGreen` calls are run as whole
    calls one after the other. -/
theorem C10_channel_phase_consistency (n : Nat) (sched : List Action) (s : System)
    (hrun : (System.init n).run sched = some s) :
    List.Chain' (fun a b => a ≠ b) s.light._phaseQueue._queue ∧
    (∀ p, s.light._phaseQueue._queue.getLast? = some p → p = s.light._currentPhase) ∧
    (∀ a s1, a ≠ Action.flip → s.step a = some s1 →
      s1.light._currentPhase = s.light._currentPhase ∧
      s1.light._phaseQueue._queue <:+ s.light._phaseQueue._queue ∧
      s1.emitted = s.emitted) ∧
    (∀ ops : List LightOp,
      List.Chain' (fun a b => a ≠ b)
        (ops.foldl TrafficLight.apply TrafficLight.new)._phaseQueue._queue ∧
      (∀ p, (ops.foldl TrafficLight.apply TrafficLight.new)._phaseQueue._queue.getLast? = some p →
        p = (ops.foldl TrafficLight.apply TrafficLight.new)._currentPhase)) ∧
    (∀ (l : TrafficLight) (op : LightOp), op ≠ LightOp.flip →
      (l.apply op)._currentPhase = l._currentPhase ∧
      (l.apply op)._phaseQueue._queue <:+ l._phaseQueue._queue) := by
  obtain ⟨hc, hl⟩ := System.run_consistent n sched s hrun
  refine ⟨hc, hl, ?_, fun ops => TrafficLight.foldl_apply_consistent ops _ Consistent.new,
    TrafficLight.apply_frame⟩
  intro a s1 ha hs
  cases a with
  | flip => exact absurd rfl ha
  | enter i =>
    obtain ⟨_, h1⟩ := System.step_enter s s1 i hs
    rw [h1]
    exact ⟨rfl, List.suffix_refl _, rfl⟩
  | recv i =>
    obtain ⟨_, p, r, hq, h1⟩ := System.step_recv s s1 i hs
    rw [h1, hq]
    exact ⟨rfl, List.suffix_cons p r, rfl⟩

/-- Witness of C10 with one caller: two flips, then the caller enters on red
    and receives the green of the first flip. -/
theorem C10_channel_phase_consistency_witness :
    (System.init 1).run [Action.flip, Action.flip, Action.enter 0, Action.recv 0]
      = some ⟨⟨red, ⟨[red]⟩⟩, [CallerPc.returned], [green, red]⟩ ∧
    (List.Chain' (fun a b => a ≠ b) [red] ∧
    (∀ p, [red].getLast? = some p → p = red) ∧
    (∀ a s1, a ≠ Action.flip →
      (System.mk ⟨red, ⟨[red]⟩⟩ [CallerPc.returned] [green, red]).step a = some s1 →
      s1.light._currentPhase = red ∧
      s1.light._phaseQueue._queue <:+ [red] ∧
      s1.emitted = [green, red]) ∧
    (∀ ops : List LightOp,
      List.Chain' (fun a b => a ≠ b)
        (ops.foldl TrafficLight.apply TrafficLight.new)._phaseQueue._queue ∧
      (∀ p, (ops.foldl TrafficLight.apply TrafficLight.new)._phaseQueue._queue.getLast? = some p →
        p = (ops.foldl TrafficLight.apply TrafficLight.new)._currentPhase)) ∧
    (∀ (l : TrafficLight) (op : LightOp), op ≠ LightOp.flip →
      (l.apply op)._currentPhase = l._currentPhase ∧
      (l.apply op)._phaseQueue._queue <:+ l._phaseQueue._queue)) :=
  ⟨by decide, C10_channel_phase_consistency 1
    [Action.flip, Action.flip, Action.enter 0, Action.recv 0]
    ⟨⟨red, ⟨[red]⟩⟩, [CallerPc.returned], [green, red]⟩ (by decide)⟩

/-! ## When a call of waitForGreen returns -/

theorem FineSystem.flipWrite_spec (s s1 : FineSystem)
    (h : s.step FineAction.flipWrite = some s1) :
    s.timer = TimerPc.outside ∧
    s1 = ⟨⟨if s.light._currentPhase = green then red else green, s.light._phaseQueue⟩,
      TimerPc.written, s.callers⟩ := by
  simp only [FineSystem.step] at h
  split at h
  · next ht =>
    simp only [Option.some.injEq] at h
    exact ⟨ht, h.symm⟩
  · cases h

theorem FineSystem.flipSend_spec (s s1 : FineSystem)
    (h : s.step FineAction.flipSend = some s1) :
    s.timer = TimerPc.written ∧
    s1 = ⟨⟨s.light._currentPhase, s.light._phaseQueue.send s.light._currentPhase⟩,
      TimerPc.outside, s.callers⟩ := by
  simp only [FineSystem.step] at h
  split at h
  · next ht =>
    simp only [Option.some.injEq] at h
    exact ⟨ht, h.symm⟩
  · cases h

theorem FineSystem.enter_spec (s s1 : FineSystem) (i : Nat)
    (h : s.step (FineAction.enter i) = some s1) :
    s.timer = TimerPc.outside ∧ s.callers[i]? = some CallerPc.idle ∧
    s1 = ⟨s.light, s.timer, s.callers.set i
      (if s.light._currentPhase = green then CallerPc.returned else CallerPc.waiting)⟩ := by
  simp only [FineSystem.step] at h
  split at h
  · next ht hc =>
    simp only [Option.some.injEq] at h
    exact ⟨ht, hc, h.symm⟩
  · cases h

theorem FineSystem.recv_spec (s s1 : FineSystem) (i : Nat)
    (h : s.step (FineAction.recv i) = some s1) :
    s.callers[i]? = some CallerPc.waiting ∧
    ∃ p r, s.light._phaseQueue._queue = p :: r ∧
      s1 = ⟨⟨s.light._currentPhase, ⟨r⟩⟩, s.timer, s.callers.set i
        (if p = green then CallerPc.returned else CallerPc.waiting)⟩ := by
  simp only [FineSystem.step] at h
  split at h
  · next hc =>
    refine ⟨hc, ?_⟩
    cases hq : s.light._phaseQueue._queue with
    | nil =>
      rw [MessageQueue.receive_nil _ hq] at h
      cases h
    | cons p r =>
      rw [MessageQueue.receive_cons _ p r hq] at h
      simp only [Option.some.injEq] at h
      exact ⟨p, r, rfl, h.symm⟩
  · cases h

/-- The two steps of a flip, one after the other, do what `changePhase` does. -/
theorem FineSystem.flip_eq_changePhase (s s1 s2 : FineSystem)
    (h1 : s.step FineAction.flipWrite = some s1) (h2 : s1.step FineAction.flipSend = some s2) :
    s2.light = s.light.changePhase ∧ s2.timer = TimerPc.outside ∧ s2.callers = s.callers := by
  obtain ⟨_, e1⟩ := FineSystem.flipWrite_spec s s1 h1
  obtain ⟨_, e2⟩ := FineSystem.flipSend_spec s1 s2 h2
  subst e1
  subst e2
  exact ⟨rfl, rfl, rfl⟩

theorem FineSystem.reach_induction (P : FineSystem → Prop)
    (hstep : ∀ s a s1, P s → s.step a = some s1 → P s1)
    (sched : List FineAction) (s s1 : FineSystem) (h0 : P s) (hrun : s.run sched = some s1) :
    P s1 := by
  induction sched generalizing s with
  | nil =>
    simp only [FineSystem.run, Option.some.injEq] at hrun
    exact hrun ▸ h0
  | cons a rest ih =>
    simp only [FineSystem.run] at hrun
    cases hs : s.step a with
    | none => rw [hs] at hrun; cases hrun
    | some s2 =>
      rw [hs] at hrun
      exact ih s2 (hstep s a s2 h0 hs) hrun

theorem TrafficLightPhase.eq_of_ne_of_ne (p q r : TrafficLightPhase) (h1 : p ≠ q)
    (h2 : r ≠ q) : p = r := by
  cases p <;> cases q <;> cases r <;> first | rfl | exact absurd rfl h1 | exact absurd rfl h2

theorem FineSystem.Consistent.init (n : Nat) : (FineSystem.init n).Consistent := by
  simp [FineSystem.Consistent, FineSystem.init, TrafficLight.new, MessageQueue.empty]

theorem FineSystem.Consistent.preserved (s : FineSystem) (a : FineAction) (s1 : FineSystem)
    (h : s.Consistent) (hs : s.step a = some s1) : s1.Consistent := by
  obtain ⟨hc, hl⟩ := h
  cases a with
  | flipWrite =>
    obtain ⟨ht, e⟩ := FineSystem.flipWrite_spec s s1 hs
    subst e
    refine ⟨hc, ?_⟩
    intro p hp
    refine ⟨fun h => TimerPc.noConfusion h, fun _ => ?_⟩
    have hp1 := (hl p hp).1 ht
    simp only
    rw [hp1]
    cases s.light._currentPhase <;> simp
  | flipSend =>
    obtain ⟨ht, e⟩ := FineSystem.flipSend_spec s s1 hs
    subst e
    refine ⟨?_, ?_⟩
    · simp only [MessageQueue.send]
      rw [List.chain'_append]
      refine ⟨hc, List.chain'_singleton _, ?_⟩
      intro x hx y hy
      simp only [List.head?_cons, Option.mem_def, Option.some.injEq] at hy
      simp only [Option.mem_def] at hx
      rw [← hy]
      exact (hl x hx).2 ht
    · intro p hp
      simp only [MessageQueue.send, List.getLast?_concat, Option.some.injEq] at hp
      exact ⟨fun _ => hp.symm, fun h => TimerPc.noConfusion h⟩
  | enter i =>
    obtain ⟨_, _, e⟩ := FineSystem.enter_spec s s1 i hs
    subst e
    exact ⟨hc, hl⟩
  | recv i =>
    obtain ⟨_, p, r, hq, e⟩ := FineSystem.recv_spec s s1 i hs
    subst e
    rw [hq] at hc hl
    refine ⟨hc.tail, ?_⟩
    intro x hx
    cases r with
    | nil => simp at hx
    | cons y r =>
      apply hl x
      simp only [List.getLast?_cons_cons]
      exact hx

theorem FineSystem.reach_consistent (n : Nat) (sched : List FineAction) (s : FineSystem)
    (hrun : (FineSystem.init n).run sched = some s) : s.Consistent :=
  FineSystem.reach_induction FineSystem.Consistent
    (fun s a s1 h hs => FineSystem.Consistent.preserved s a s1 h hs) sched (FineSystem.init n) s
    (FineSystem.Consistent.init n) hrun

/-- In a sequence with no two adjacent equal phases the last element equals
    the first exactly when an even number of elements follow the first. -/
theorem TrafficLightPhase.last_eq_head_iff (x : TrafficLightPhase)
    (r : List TrafficLightPhase) (hc : List.Chain' (fun a b => a ≠ b) (x :: r))
    (p : TrafficLightPhase) (hp : (x :: r).getLast? = some p) :
    p = x ↔ r.length % 2 = 0 := by
  induction r generalizing x with
  | nil =>
    simp only [List.getLast?_singleton, Option.some.injEq] at hp
    simp [hp]
  | cons y r ih =>
    rw [List.chain'_cons] at hc
    obtain ⟨hxy, hc1⟩ := hc
    rw [List.getLast?_cons_cons] at hp
    have h := ih y hc1 hp
    simp only [List.length_cons]
    constructor
    · intro hpx
      have hpy : p ≠ y := by rw [hpx]; exact hxy
      have : ¬ r.length % 2 = 0 := fun e => hpy (h.mpr e)
      omega
    · intro hlen
      have hpy : p ≠ y := fun e => by
        have := h.mp e
        omega
      exact TrafficLightPhase.eq_of_ne_of_ne p y x hpy hxy

/-- C6 (as stated, refuted): with one caller.  After two flips the light is red
    again and the green of the first flip is still pending; the caller then
    enters while the light is red, receives that green, and returns while the
    current phase is red.  And when the caller has entered on red and the
    timer has sent green and already written the next red, the caller
    receives that green, the latest emission, and returns while the current
    phase is red and the channel is empty. -/
theorem C6_counterexample :
    ((FineSystem.init 1).run
        [FineAction.flipWrite, FineAction.flipSend, FineAction.flipWrite, FineAction.flipSend]).map
        (fun s => (s.light._currentPhase, s.light._phaseQueue._queue, s.timer))
      = some (red, [green, red], TimerPc.outside) ∧
    ((FineSystem.init 1).run
        [FineAction.flipWrite, FineAction.flipSend, FineAction.flipWrite, FineAction.flipSend,
          FineAction.enter 0, FineAction.recv 0]).map
        (fun s => (s.callers, s.light._currentPhase, s.light._phaseQueue._queue, s.timer))
      = some ([CallerPc.returned], red, [red], TimerPc.outside) ∧
    ((FineSystem.init 1).run
        [FineAction.enter 0, FineAction.flipWrite, FineAction.flipSend, FineAction.flipWrite,
          FineAction.recv 0]).map
        (fun s => (s.callers, s.light._currentPhase, s.light._phaseQueue._queue, s.timer))
      = some ([CallerPc.returned], red, [], TimerPc.written) := by
  decide

/-- C6 (amended): in every state reached from a newly constructed light by any
    schedule of timer steps (the write of the phase and the send of a flip
    taken apart) and `waitForGreen` steps, a call that returns in its phase
    check runs while the timer is outside its block and returns with the
    current phase green and the light untouched; a call that returns in a
    receive has just taken a green from the front of the channel, and the
    current phase at that moment is green exactly when the number of
    notifications still pending is even while the timer is outside its block,
    and exactly when that number is odd while the timer has written the next
    phase and not yet sent it. -/
theorem C6_waitForGreen_return (n : Nat) (sched : List FineAction) (s : FineSystem)
    (a : FineAction) (s1 : FineSystem) (hrun : (FineSystem.init n).run sched = some s)
    (hstep : s.step a = some s1) (hret : FineSystem.returnsIn a s1 = true) :
    (∀ i, a = FineAction.enter i →
      s.timer = TimerPc.outside ∧ s1.light = s.light ∧ s1.light._currentPhase = green) ∧
    (∀ i, a = FineAction.recv i →
      s.light._phaseQueue._queue = green :: s1.light._phaseQueue._queue ∧
      s1.light._currentPhase = s.light._currentPhase ∧
      s1.timer = s.timer ∧
      (s1.timer = TimerPc.outside →
        (s1.light._currentPhase = green ↔ s1.light._phaseQueue._queue.length % 2 = 0)) ∧
      (s1.timer = TimerPc.written →
        (s1.light._currentPhase = green ↔ s1.light._phaseQueue._queue.length % 2 = 1))) := by
  have hcons := FineSystem.reach_consistent n sched s hrun
  refine ⟨?_, ?_⟩
  · intro i hi
    subst hi
    obtain ⟨ht, hc, h1⟩ := FineSystem.enter_spec s s1 i hstep
    have hlt : i < s.callers.length := by
      by_contra hge
      rw [List.getElem?_eq_none (Nat.le_of_not_lt hge)] at hc
      cases hc
    subst h1
    simp only [FineSystem.returnsIn, List.getElem?_set_self hlt, Option.some.injEq,
      decide_eq_true_eq] at hret
    by_cases hg : s.light._currentPhase = green
    · exact ⟨ht, rfl, hg⟩
    · simp [hg] at hret
  · intro i hi
    subst hi
    obtain ⟨hc, p, r, hq, h1⟩ := FineSystem.recv_spec s s1 i hstep
    have hlt : i < s.callers.length := by
      by_contra hge
      rw [List.getElem?_eq_none (Nat.le_of_not_lt hge)] at hc
      cases hc
    subst h1
    simp only [FineSystem.returnsIn, List.getElem?_set_self hlt, Option.some.injEq,
      decide_eq_true_eq] at hret
    have hp : p = green := by
      by_cases hg : p = green
      · exact hg
      · simp [hg] at hret
    subst hp
    obtain ⟨hchain, hlast⟩ := hcons
    rw [hq] at hchain hlast
    obtain ⟨x, hx⟩ : ∃ x, (green :: r).getLast? = some x := by
      cases hl : (green :: r).getLast? with
      | none => simp at hl
      | some x => exact ⟨x, rfl⟩
    have hpar := TrafficLightPhase.last_eq_head_iff green r hchain x hx
    refine ⟨hq, rfl, rfl, ?_, ?_⟩
    · intro ht
      simp only at ht ⊢
      rw [← (hlast x hx).1 ht]
      exact hpar
    · intro ht
      simp only at ht ⊢
      have hne := (hlast x hx).2 ht
      constructor
      · intro hg
        have : ¬ r.length % 2 = 0 := fun e => hne ((hpar.mpr e).trans hg.symm)
        omega
      · intro hodd
        have hxg : x ≠ green := fun e => by
          have := hpar.mp e
          omega
        exact TrafficLightPhase.eq_of_ne_of_ne s.light._currentPhase x green
          (Ne.symm hne) (Ne.symm hxg)

/-- Witness of C6: the caller enters on red, the timer flips to green, and the
    caller receives that green, the latest emission, and returns on green
    with nothing pending and the timer outside its block. -/
theorem C6_waitForGreen_return_witness :
    (∀ i, FineAction.recv 0 = FineAction.enter i →
      TimerPc.outside = TimerPc.outside ∧
      TrafficLight.mk green ⟨[]⟩ = TrafficLight.mk green ⟨[green]⟩ ∧ green = green) ∧
    (∀ i, FineAction.recv 0 = FineAction.recv i →
      [green] = green :: [] ∧ green = green ∧ TimerPc.outside = TimerPc.outside ∧
      (TimerPc.outside = TimerPc.outside →
        (green = green ↔ ([] : List TrafficLightPhase).length % 2 = 0)) ∧
      (TimerPc.outside = TimerPc.written →
        (green = green ↔ ([] : List TrafficLightPhase).length % 2 = 1))) :=
  C6_waitForGreen_return 1 [FineAction.enter 0, FineAction.flipWrite, FineAction.flipSend]
    ⟨⟨green, ⟨[green]⟩⟩, TimerPc.outside, [CallerPc.waiting]⟩ (FineAction.recv 0)
    ⟨⟨green, ⟨[]⟩⟩, TimerPc.outside, [CallerPc.returned]⟩ (by decide) (by decide) (by decide)

/-! ## Ten callers on one light -/

theorem CallerPc.count_set (l : List CallerPc) (i : Nat) (a b c : CallerPc)
    (h : l[i]? = some a) :
    (l.set i b).count c + (if a = c then 1 else 0) = l.count c + (if b = c then 1 else 0) := by
  induction l generalizing i with
  | nil => simp at h
  | cons x l ih =>
    cases i with
    | zero =>
      simp only [List.getElem?_cons_zero, Option.some.injEq] at h
      subst h
      simp only [List.set_cons_zero, List.count_cons, beq_iff_eq]
      omega
    | succ j =>
      simp only [List.getElem?_cons_succ] at h
      have := ih j h
      simp only [List.set_cons_succ, List.count_cons, beq_iff_eq]
      omega

theorem Accounted.allWaiting (n : Nat) : Accounted n (System.allWaiting n) := by
  refine ⟨?_, ?_, ?_⟩
  · intro c hc
    simp only [System.allWaiting, List.mem_replicate] at hc
    rw [hc.2]
    decide
  · simp [System.numReturned, System.numWaiting, System.allWaiting, List.count_replicate]
  · simp [System.numReturned, System.allWaiting, List.count_replicate, TrafficLight.new,
      MessageQueue.empty]

theorem Accounted.step (n : Nat) (s : System) (a : Action) (s1 : System)
    (h : Accounted n s) (hs : s.step a = some s1) : Accounted n s1 := by
  obtain ⟨hidle, hsum, hgreen⟩ := h
  cases a with
  | flip =>
    rw [System.step_flip] at hs
    simp only [Option.some.injEq] at hs
    subst hs
    refine ⟨hidle, hsum, ?_⟩
    simp only [System.numReturned] at hgreen ⊢
    rw [TrafficLight.changePhase_queue, List.count_append, List.count_append]
    omega
  | enter i =>
    obtain ⟨hc, _⟩ := System.step_enter s s1 i hs
    exact absurd rfl (hidle _ (List.getElem?_mem hc))
  | recv i =>
    obtain ⟨hc, p, r, hq, h1⟩ := System.step_recv s s1 i hs
    subst h1
    simp only [System.numReturned, System.numWaiting] at hsum hgreen
    rw [hq] at hgreen
    unfold Accounted
    simp only [System.numReturned, System.numWaiting]
    by_cases hp : p = green
    · subst hp
      have hret := CallerPc.count_set s.callers i CallerPc.waiting CallerPc.returned
        CallerPc.returned hc
      have hwait := CallerPc.count_set s.callers i CallerPc.waiting CallerPc.returned
        CallerPc.waiting hc
      simp only [if_true, List.count_cons_self] at hret hwait hgreen ⊢
      simp only [reduceCtorEq, if_false] at hret hwait
      refine ⟨?_, by omega, by omega⟩
      intro c hmem
      rcases List.mem_or_eq_of_mem_set hmem with h | h
      · exact hidle c h
      · rw [h]; decide
    · have hred := TrafficLightPhase.eq_red_of_ne_green p hp
      subst hred
      have hret := CallerPc.count_set s.callers i CallerPc.waiting CallerPc.waiting
        CallerPc.returned hc
      have hwait := CallerPc.count_set s.callers i CallerPc.waiting CallerPc.waiting
        CallerPc.waiting hc
      have hcount : List.count green (red :: r) = List.count green r := by
        simp [List.count_cons]
      rw [hcount] at hgreen
      simp only [reduceCtorEq, if_false] at hret hwait ⊢
      refine ⟨?_, by omega, by omega⟩
      intro c hmem
      rcases List.mem_or_eq_of_mem_set hmem with h | h
      · exact hidle c h
      · rw [h]; decide

/-- C9 (as stated, refuted): ten callers enter while the light is red and the
    channel is empty.  The first green is received by caller 0, which returns;
    the following red is received by caller 1, which keeps waiting; the second
    green is received by caller 1, which returns.  At that point the second
    green has been emitted and consumed, the channel is empty, eight callers
    are still waiting, and none of the ten can take a receive step. -/
theorem C9_counterexample :
    (System.init 10).run ((List.range 10).map Action.enter) = some (System.allWaiting 10) ∧
    ((System.allWaiting 10).run
        [Action.flip, Action.recv 0, Action.flip, Action.recv 1, Action.flip, Action.recv 1]).map
        (fun s => (s.emitted, s.light._phaseQueue._queue, s.numReturned, s.numWaiting,
          (List.range 10).map (fun i => (s.step (Action.recv i)).isSome)))
      = some ([green, red, green], [], 2, 8, List.replicate 10 false) := by
  decide

/-- C9 (amended): ten callers that all entered while the light was red with an
    empty channel.  After every schedule of timer flips and receives, each of
    the ten is waiting or has returned, and the number of calls that have
    returned plus the number of greens still pending equals the number of
    greens emitted: each green emission releases exactly one caller.  So no
    call returns before the first green emission, at most two have returned
    when two greens have been emitted, all ten have returned once ten greens
    have been emitted and the channel is drained, and a waiting caller is
    never stuck while something is pending. -/
theorem C9_one_caller_per_green (sched : List Action) (s : System)
    (hrun : (System.allWaiting 10).run sched = some s) :
    (System.init 10).run ((List.range 10).map Action.enter) = some (System.allWaiting 10) ∧
    s.numReturned + s.numWaiting = 10 ∧
    s.numReturned + s.light._phaseQueue._queue.count green = s.emitted.count green ∧
    s.numReturned ≤ s.emitted.count green ∧
    (s.light._phaseQueue._queue = [] → 10 ≤ s.emitted.count green → s.numReturned = 10) ∧
    (∀ i, s.callers[i]? = some CallerPc.waiting → s.light._phaseQueue._queue ≠ [] →
      (s.step (Action.recv i)).isSome = true) := by
  obtain ⟨_, hsum, hgreen⟩ := System.run_induction (Accounted 10)
    (fun s a s1 h hs => Accounted.step 10 s a s1 h hs) sched (System.allWaiting 10) s
    (Accounted.allWaiting 10) hrun
  refine ⟨by decide, hsum, hgreen, by omega, ?_, fun i hc hq => System.step_recv_enabled s i hc hq⟩
  intro hq hten
  rw [hq] at hgreen
  simp only [List.count_nil, Nat.add_zero] at hgreen
  omega

/-- Witness of C9: after `tenGreensSchedule` ten greens have been emitted, the
    channel is empty and all ten callers have returned. -/
theorem C9_one_caller_per_green_witness :
    (System.allWaiting 10).run tenGreensSchedule = some tenGreensFinal ∧
    ((System.init 10).run ((List.range 10).map Action.enter) = some (System.allWaiting 10) ∧
    tenGreensFinal.numReturned + tenGreensFinal.numWaiting = 10 ∧
    tenGreensFinal.numReturned + tenGreensFinal.light._phaseQueue._queue.count green
      = tenGreensFinal.emitted.count green ∧
    tenGreensFinal.numReturned ≤ tenGreensFinal.emitted.count green ∧
    (tenGreensFinal.light._phaseQueue._queue = [] → 10 ≤ tenGreensFinal.emitted.count green →
      tenGreensFinal.numReturned = 10) ∧
    (∀ i, tenGreensFinal.callers[i]? = some CallerPc.waiting →
      tenGreensFinal.light._phaseQueue._queue ≠ [] →
      (tenGreensFinal.step (Action.recv i)).isSome = true)) :=
  ⟨by decide, C9_one_caller_per_green tenGreensSchedule tenGreensFinal (by decide)⟩

/-! ## Cycle duration -/

/-! ### Rounding to `double` -/

theorem ExactTick.nonneg (t : ℚ) (h : ExactTick t) : 0 ≤ t := by
  obtain ⟨n, rfl, _⟩ := h
  exact Nat.cast_nonneg n

/-- C7: `getCurrentPhase` returns the value of `_currentPhase`, hence right
    after a flip the value that flip committed; the reads and writes of
    `_currentPhase` in `waitForGreen` and in the flip of `cycleThroughPhases`
    all happen with `_mutex` held, but the read in `getCurrentPhase` happens
    with no lock held. -/
theorem C7_getCurrentPhase_reads_without_lock :
    (∀ l : TrafficLight, l.getCurrentPhase = l._currentPhase) ∧
    (∀ l : TrafficLight, l.changePhase.getCurrentPhase = l.changePhase._currentPhase) ∧
    (∀ l : TrafficLight, Access.underLock false (Access.ofWaitForGreen l) = true) ∧
    Access.underLock false Access.ofChangePhase = true ∧
    Access.underLock false Access.ofGetCurrentPhase = false := by
  refine ⟨fun _ => rfl, fun _ => rfl, ?_, by decide, by decide⟩
  intro l
  unfold Access.ofWaitForGreen
  split <;> decide

end UDTrafficSim
